import Mathlib

/-!
# Reverse proxy: server pool, selection policies and proxy handler

A shallow embedding of `main.go`.  Backends are shared by reference
(`[]*Backend`), so the embedding keeps a heap from backend pointers to
backend records and the pool holds pointers.  `uint64` and `int64`
arithmetic wraps as in Go.
-/

namespace ReverseProxy

/-! ## Data model -/

/-- A `*Backend`: the identity of a backend object. -/
abbrev Ptr := Nat

/-- The `Backend` struct; `URL` is the string form `URL.String()`. -/
structure Backend where
  URL : String
  Alive : Bool
  CurrentConns : Int
deriving DecidableEq

/-- The backend objects, by pointer. -/
abbrev Heap := Ptr → Backend

/-- Two's-complement wrap of a mathematical integer into `int64`. -/
def wrapInt64 (x : Int) : Int :=
  (x + 9223372036854775808) % 18446744073709551616 - 9223372036854775808

/-- Wrap of a natural number into `uint64`. -/
def wrapUint64 (n : Nat) : Nat := n % 18446744073709551616

/-- `Backend.SetAlive`. -/
def SetAlive (h : Heap) (b : Ptr) (alive : Bool) : Heap :=
  Function.update h b { h b with Alive := alive }

/-- `Backend.IsAlive`. -/
def IsAlive (h : Heap) (b : Ptr) : Bool := (h b).Alive

/-- `Backend.IncrementConnections`: `atomic.AddInt64(&b.CurrentConns, 1)`. -/
def IncrementConnections (h : Heap) (b : Ptr) : Heap :=
  Function.update h b { h b with CurrentConns := wrapInt64 ((h b).CurrentConns + 1) }

/-- `Backend.DecrementConnections`: `atomic.AddInt64(&b.CurrentConns, -1)`. -/
def DecrementConnections (h : Heap) (b : Ptr) : Heap :=
  Function.update h b { h b with CurrentConns := wrapInt64 ((h b).CurrentConns - 1) }

/-- `Backend.GetConnections`. -/
def GetConnections (h : Heap) (b : Ptr) : Int := (h b).CurrentConns

/-- The `ServerPool` struct: `Backends []*Backend`, `Current uint64`. -/
structure ServerPool where
  Backends : List Ptr
  Current : Nat
deriving DecidableEq

/-! ## ServerPool operations -/

/-- `ServerPool.AddBackend`: `append(s.Backends, backend)`. -/
def AddBackend (s : ServerPool) (backend : Ptr) : ServerPool :=
  { s with Backends := s.Backends ++ [backend] }

/-- The `range` loop of `RemoveBackend`: the index `i` at which the loop
first finds `backend.URL.String() == urlStr`, if it does. -/
def firstMatch (h : Heap) (urlStr : String) : List Ptr → Option Nat
  | [] => none
  | backend :: rest =>
    if (h backend).URL = urlStr then some 0
    else (firstMatch h urlStr rest).map (· + 1)

/-- `ServerPool.RemoveBackend`: at the first match,
`append(s.Backends[:i], s.Backends[i+1:]...)` and `true`; else `false`. -/
def RemoveBackend (h : Heap) (s : ServerPool) (urlStr : String) : ServerPool × Bool :=
  match firstMatch h urlStr s.Backends with
  | some i => ({ s with Backends := s.Backends.take i ++ s.Backends.drop (i + 1) }, true)
  | none => (s, false)

/-- The `range` loop of `SetBackendStatus`: `SetAlive` on the first backend
whose URL string equals `uri`, then `break`. -/
def setStatusLoop (h : Heap) (uri : String) (alive : Bool) : List Ptr → Heap
  | [] => h
  | backend :: rest =>
    if (h backend).URL = uri then SetAlive h backend alive
    else setStatusLoop h uri alive rest

/-- `ServerPool.SetBackendStatus`; `uri` is `uri.String()`. -/
def SetBackendStatus (h : Heap) (s : ServerPool) (uri : String) (alive : Bool) : Heap :=
  setStatusLoop h uri alive s.Backends

/-- The scan loop of `GetNextValidPeer`, `for i := uint64(0); i < l; i++`,
with `k` iterations left and loop variable `i`; `next + i` is a `uint64` sum.
The index is below `l`, so the slice access is in range. -/
def rrLoop (h : Heap) (bs : List Ptr) (next l : Nat) : Nat → Nat → Option Ptr
  | 0, _ => none
  | k + 1, i =>
    let idx := wrapUint64 (next + i) % l
    match bs[idx]? with
    | some backend =>
      if IsAlive h backend then some backend else rrLoop h bs next l k (i + 1)
    | none => none

/-- `ServerPool.GetNextValidPeer`: returns the pool with the advanced cursor
and the selected backend (`none` for `nil`).  An empty pool returns before the
cursor is touched. -/
def GetNextValidPeer (h : Heap) (s : ServerPool) : ServerPool × Option Ptr :=
  if s.Backends.length = 0 then (s, none)
  else
    let next := wrapUint64 (s.Current + 1)
    let l := s.Backends.length
    ({ s with Current := next }, rrLoop h s.Backends next l l 0)

/-- The `range` loop of `GetLeastConnectedPeer` over the rest of the slice,
carrying `selected` and `minConns`. -/
def leastLoop (h : Heap) : List Ptr → Option Ptr → Int → Option Ptr
  | [], selected, _ => selected
  | backend :: rest, selected, minConns =>
    if !IsAlive h backend then leastLoop h rest selected minConns
    else
      let conns := GetConnections h backend
      if minConns = -1 ∨ conns < minConns then leastLoop h rest (some backend) conns
      else leastLoop h rest selected minConns

/-- `ServerPool.GetLeastConnectedPeer`: `selected` starts `nil`, `minConns` at `-1`. -/
def GetLeastConnectedPeer (h : Heap) (s : ServerPool) : Option Ptr :=
  leastLoop h s.Backends none (-1)

/-! ## Proxy handler -/

/-- The `ProxyServer`: the configured strategy, the backend objects and the pool. -/
structure ProxyServer where
  Strategy : String
  heap : Heap
  serverPool : ServerPool

/-- The strategy dispatch at the head of `proxyHandler`. -/
def selectPeer (p : ProxyServer) : ServerPool × Option Ptr :=
  if p.Strategy = "least-conn" then (p.serverPool, GetLeastConnectedPeer p.heap p.serverPool)
  else GetNextValidPeer p.heap p.serverPool

/-- `proxyHandler` up to the call of `proxy.ServeHTTP`: select; on `nil` answer
503 and return (result `none`); otherwise increment the selected backend's
counter (result `some backend`). -/
def handlerBegin (p : ProxyServer) : ProxyServer × Option Ptr :=
  match selectPeer p with
  | (pool, none) => ({ p with serverPool := pool }, none)
  | (pool, some backend) =>
    ({ p with serverPool := pool, heap := IncrementConnections p.heap backend }, some backend)

/-- The `proxy.ErrorHandler` closure: `SetBackendStatus(backend.URL, false)` on
the pool as it is when the failure happens, then 502. -/
def errorHandler (p : ProxyServer) (backend : Ptr) : ProxyServer × Nat :=
  ({ p with heap := SetBackendStatus p.heap p.serverPool (p.heap backend).URL false }, 502)

/-- The deferred `backend.DecrementConnections()`. -/
def handlerEnd (p : ProxyServer) (backend : Ptr) : ProxyServer :=
  { p with heap := DecrementConnections p.heap backend }

/-- What one run of `proxyHandler` did: the status written and the backend the
request was forwarded to, if any. -/
structure Response where
  status : Nat
  forwardedTo : Option Ptr
deriving DecidableEq

/-- One uninterrupted run of `proxyHandler`.  `upstream` is what forwarding
does: `none` for a transport-level failure, `some st` for a response with
status `st` from the backend. -/
def proxyHandler (p : ProxyServer) (upstream : Option Nat) : ProxyServer × Response :=
  match handlerBegin p with
  | (p1, none) => (p1, { status := 503, forwardedTo := none })
  | (p1, some backend) =>
    match upstream with
    | none =>
      let r := errorHandler p1 backend
      (handlerEnd r.1 backend, { status := r.2, forwardedTo := some backend })
    | some st => (handlerEnd p1 backend, { status := st, forwardedTo := some backend })

/-! ## Interleaved requests -/

/-- The results of `k` consecutive calls of `GetNextValidPeer` on a pool whose
backends do not change in between; the cursor is threaded through. -/
def callsRR (h : Heap) : ServerPool → Nat → List (Option Ptr)
  | _, 0 => []
  | s, k + 1 => (GetNextValidPeer h s).2 :: callsRR h (GetNextValidPeer h s).1 k

/-- Three backends, only the third alive. -/
def heapLastAlive : Heap := fun b =>
  if b = 0 then ⟨"http://127.0.0.1:9001", false, 0⟩
  else if b = 1 then ⟨"http://127.0.0.1:9002", false, 0⟩
  else ⟨"http://127.0.0.1:9003", true, 0⟩

/-- Backends A (pointer 0, 5 connections) and B (every other pointer, none),
all alive. -/
def heapAB : Heap := fun b =>
  if b = 0 then ⟨"http://127.0.0.1:9001", true, 5⟩
  else ⟨"http://127.0.0.1:9002", true, 0⟩

/-- Every backend object has the same URL, is alive and idle. -/
def heapSameURL : Heap := fun _ => ⟨"http://127.0.0.1:9001", true, 0⟩

/-- Two backend objects with one URL in a round-robin proxy at cursor 0. -/
def proxyDup : ProxyServer :=
  { Strategy := "round-robin", heap := heapSameURL, serverPool := ⟨[0, 1], 0⟩ }

/-- A proxy with an unknown strategy string whose three registered backends
are the two dead ones of `heapLastAlive`, one of them twice. -/
def proxyAllDead : ProxyServer :=
  { Strategy := "", heap := heapLastAlive, serverPool := ⟨[0, 1, 0], 7⟩ }

/-- Backends A and B of `heapAB` in a round-robin proxy at cursor 0. -/
def proxyAB : ProxyServer :=
  { Strategy := "round-robin", heap := heapAB, serverPool := ⟨[0, 1], 0⟩ }

/-- Backends A (5 connections) and B (idle) under the strategy "least-conn",
cursor at 1. -/
def proxyLeastConn : ProxyServer :=
  { Strategy := "least-conn", heap := heapAB, serverPool := ⟨[0, 1], 1⟩ }

/-- The same pool under a misspelt strategy string. -/
def proxyMisspelt : ProxyServer :=
  { Strategy := "least-con", heap := heapAB, serverPool := ⟨[0, 1], 1⟩ }

/-- The positions the specification scans from cursor value `c` over `N`
backends: `(c+1) mod N, (c+2) mod N, ...`, `N` of them, in unbounded
arithmetic. -/
def scanPositions (c N : Nat) : List Nat :=
  (List.range N).map (fun i => (c + 1 + i) % N)

/-- The first alive backend met along `scanPositions`. -/
def firstAliveFrom (h : Heap) (bs : List Ptr) (c : Nat) : Option Ptr :=
  ((scanPositions c bs.length).filterMap (fun idx => bs[idx]?)).find? (IsAlive h)

/-! ## RemoveBackend -/

theorem firstMatch_eq_none (h : Heap) (u : String) (bs : List Ptr) :
    firstMatch h u bs = none ↔ ∀ b ∈ bs, (h b).URL ≠ u := by
  induction bs with
  | nil => simp [firstMatch]
  | cons b rest ih =>
    by_cases hb : (h b).URL = u
    · simp [firstMatch, hb]
    · simp [firstMatch, hb, ih]

theorem firstMatch_eq_some (h : Heap) (u : String) (bs : List Ptr) (i : Nat)
    (hi : firstMatch h u bs = some i) :
    ∃ pre b post, bs = pre ++ b :: post ∧ pre.length = i ∧ (h b).URL = u ∧
      ∀ x ∈ pre, (h x).URL ≠ u := by
  induction bs generalizing i with
  | nil => simp [firstMatch] at hi
  | cons b rest ih =>
    by_cases hb : (h b).URL = u
    · simp [firstMatch, hb] at hi
      exact ⟨[], b, rest, by simp, by simp [hi], hb, by simp⟩
    · simp only [firstMatch, hb, if_false, Option.map_eq_some'] at hi
      obtain ⟨j, hj, rfl⟩ := hi
      obtain ⟨pre, c, post, h1, h2, h3, h4⟩ := ih j hj
      refine ⟨b :: pre, c, post, by simp [h1], by simp [h2], h3, ?_⟩
      intro x hx
      rcases List.mem_cons.mp hx with rfl | hx
      · exact hb
      · exact h4 x hx

theorem take_append_drop_succ_split (pre post : List Ptr) (b : Ptr) :
    (pre ++ b :: post).take pre.length ++ (pre ++ b :: post).drop (pre.length + 1)
      = pre ++ post := by
  simp [List.take_append_eq_append_take, List.drop_append_eq_append_drop]

/-- The shape of a successful removal. -/
theorem RemoveBackend_true (h : Heap) (s : ServerPool) (u : String)
    (ht : (RemoveBackend h s u).2 = true) :
    ∃ pre b post, s.Backends = pre ++ b :: post ∧ (h b).URL = u ∧
      (∀ x ∈ pre, (h x).URL ≠ u) ∧
      (RemoveBackend h s u).1 = { s with Backends := pre ++ post } := by
  unfold RemoveBackend at ht ⊢
  cases hm : firstMatch h u s.Backends with
  | none => simp [hm] at ht
  | some i =>
    obtain ⟨pre, b, post, h1, h2, h3, h4⟩ := firstMatch_eq_some h u s.Backends i hm
    refine ⟨pre, b, post, h1, h3, h4, ?_⟩
    simp only
    rw [h1, ← h2, take_append_drop_succ_split]

theorem RemoveBackend_true_iff (h : Heap) (s : ServerPool) (u : String) :
    (RemoveBackend h s u).2 = true ↔ ∃ b ∈ s.Backends, (h b).URL = u := by
  unfold RemoveBackend
  cases hm : firstMatch h u s.Backends with
  | none =>
    have := (firstMatch_eq_none h u s.Backends).mp hm
    simp only [Bool.false_eq_true, false_iff, not_exists, not_and]
    exact this
  | some i =>
    obtain ⟨pre, b, post, h1, _, h3, _⟩ := firstMatch_eq_some h u s.Backends i hm
    simp only [true_iff]
    exact ⟨b, by simp [h1], h3⟩

theorem RemoveBackend_false (h : Heap) (s : ServerPool) (u : String)
    (hf : (RemoveBackend h s u).2 = false) : (RemoveBackend h s u).1 = s := by
  unfold RemoveBackend at hf ⊢
  cases hm : firstMatch h u s.Backends with
  | none => rfl
  | some i => simp [hm] at hf

/-- C1: `RemoveBackend` returns true exactly when some backend of the pool has
the URL string; on true the backend sequence is the original one with the
first such backend deleted (one shorter, the others in their order, the cursor
untouched); on false the pool is unchanged. -/
theorem C1_removeBackend_first_match (h : Heap) (s : ServerPool) (u : String) :
    ((RemoveBackend h s u).2 = true ↔ ∃ b ∈ s.Backends, (h b).URL = u) ∧
    ((RemoveBackend h s u).2 = true →
      ∃ pre b post, s.Backends = pre ++ b :: post ∧ (h b).URL = u ∧
        (∀ x ∈ pre, (h x).URL ≠ u) ∧
        (RemoveBackend h s u).1.Backends = pre ++ post ∧
        (RemoveBackend h s u).1.Backends.length + 1 = s.Backends.length ∧
        (RemoveBackend h s u).1.Current = s.Current) ∧
    ((RemoveBackend h s u).2 = false → (RemoveBackend h s u).1 = s) := by
  refine ⟨RemoveBackend_true_iff h s u, ?_, RemoveBackend_false h s u⟩
  intro ht
  obtain ⟨pre, b, post, h1, h2, h3, h4⟩ := RemoveBackend_true h s u ht
  refine ⟨pre, b, post, h1, h2, h3, ?_, ?_, ?_⟩
  · rw [h4]
  · rw [h4, h1]; simp; omega
  · rw [h4]

/-- C1 at the pool `[9001, 9002, 9003]`: removing 9002 returns true and leaves
`[9001, 9003]`; removing an unknown URL returns false and changes nothing. -/
theorem C1_removeBackend_first_match_witness :
    RemoveBackend heapLastAlive ⟨[0, 1, 2], 5⟩ "http://127.0.0.1:9002" = (⟨[0, 2], 5⟩, true) ∧
    (∃ pre b post, [0, 1, 2] = pre ++ b :: post ∧
      (heapLastAlive b).URL = "http://127.0.0.1:9002" ∧
      (∀ x ∈ pre, (heapLastAlive x).URL ≠ "http://127.0.0.1:9002") ∧
      (RemoveBackend heapLastAlive ⟨[0, 1, 2], 5⟩ "http://127.0.0.1:9002").1.Backends
        = pre ++ post ∧
      (RemoveBackend heapLastAlive ⟨[0, 1, 2], 5⟩ "http://127.0.0.1:9002").1.Backends.length + 1
        = [0, 1, 2].length ∧
      (RemoveBackend heapLastAlive ⟨[0, 1, 2], 5⟩ "http://127.0.0.1:9002").1.Current = 5) ∧
    (RemoveBackend heapLastAlive ⟨[0, 1, 2], 5⟩ "http://127.0.0.1:9009").1 = ⟨[0, 1, 2], 5⟩ :=
  ⟨by decide,
    (C1_removeBackend_first_match heapLastAlive ⟨[0, 1, 2], 5⟩ "http://127.0.0.1:9002").2.1
      (by decide),
    (C1_removeBackend_first_match heapLastAlive ⟨[0, 1, 2], 5⟩ "http://127.0.0.1:9009").2.2
      (by decide)⟩

/-! ## GetNextValidPeer -/

theorem rrLoop_some (h : Heap) (bs : List Ptr) (next l k i : Nat) (b : Ptr)
    (hr : rrLoop h bs next l k i = some b) : b ∈ bs ∧ IsAlive h b = true := by
  induction k generalizing i with
  | zero => simp [rrLoop] at hr
  | succ k ih =>
    simp only [rrLoop] at hr
    cases hg : bs[wrapUint64 (next + i) % l]? with
    | none => simp [hg] at hr
    | some c =>
      simp only [hg] at hr
      by_cases hc : IsAlive h c = true
      · simp only [hc, if_true, Option.some.injEq] at hr
        subst hr
        exact ⟨List.getElem?_mem hg, hc⟩
      · simp only [hc] at hr
        exact ih (i + 1) hr

theorem rrLoop_all_dead (h : Heap) (bs : List Ptr) (next l k i : Nat)
    (hd : ∀ b ∈ bs, IsAlive h b = false) : rrLoop h bs next l k i = none := by
  induction k generalizing i with
  | zero => simp [rrLoop]
  | succ k ih =>
    simp only [rrLoop]
    cases hg : bs[wrapUint64 (next + i) % l]? with
    | none => rfl
    | some c =>
      have := hd c (List.getElem?_mem hg)
      simp [this, ih]

theorem GetNextValidPeer_some (h : Heap) (s : ServerPool) (b : Ptr)
    (hr : (GetNextValidPeer h s).2 = some b) : b ∈ s.Backends ∧ IsAlive h b = true := by
  unfold GetNextValidPeer at hr
  by_cases hl : s.Backends.length = 0
  · simp [hl] at hr
  · simp only [hl, if_false] at hr
    exact rrLoop_some h s.Backends _ _ _ _ b hr

theorem GetNextValidPeer_all_dead (h : Heap) (s : ServerPool)
    (hd : ∀ b ∈ s.Backends, IsAlive h b = false) : (GetNextValidPeer h s).2 = none := by
  unfold GetNextValidPeer
  by_cases hl : s.Backends.length = 0
  · simp [hl]
  · simp only [hl, if_false]
    exact rrLoop_all_dead h s.Backends _ _ _ _ hd

theorem GetNextValidPeer_Backends (h : Heap) (s : ServerPool) :
    (GetNextValidPeer h s).1.Backends = s.Backends := by
  unfold GetNextValidPeer
  by_cases hl : s.Backends.length = 0 <;> simp [hl]

/-- Without `uint64` overflow the loop is the scan of the specification. -/
theorem rrLoop_eq_find (h : Heap) (bs : List Ptr) (next k i : Nat)
    (hl : 0 < bs.length) (hov : next + i + k ≤ 18446744073709551616) :
    rrLoop h bs next bs.length k i =
      (((List.range' i k).map (fun j => (next + j) % bs.length)).filterMap
        (fun idx => bs[idx]?)).find? (IsAlive h) := by
  induction k generalizing i with
  | zero => simp [rrLoop]
  | succ k ih =>
    have hw : wrapUint64 (next + i) = next + i := by
      unfold wrapUint64; exact Nat.mod_eq_of_lt (by omega)
    have hlt : (next + i) % bs.length < bs.length := Nat.mod_lt _ hl
    rw [List.range'_succ, List.map_cons,
      List.filterMap_cons_some (List.getElem?_eq_getElem hlt), List.find?_cons, rrLoop]
    simp only [hw, List.getElem?_eq_getElem hlt]
    by_cases hc : IsAlive h bs[(next + i) % bs.length] = true
    · simp only [hc, if_true]
    · have hc2 : IsAlive h bs[(next + i) % bs.length] = false := by simpa using hc
      simp only [hc2]
      exact ih (i + 1) (by omega)

theorem GetNextValidPeer_eq_firstAliveFrom (h : Heap) (bs : List Ptr) (c : Nat)
    (hl : 1 ≤ bs.length) (hov : c + bs.length < 18446744073709551616) :
    GetNextValidPeer h ⟨bs, c⟩ = (⟨bs, c + 1⟩, firstAliveFrom h bs c) := by
  have hw : wrapUint64 (c + 1) = c + 1 := by
    unfold wrapUint64; exact Nat.mod_eq_of_lt (by omega)
  unfold GetNextValidPeer firstAliveFrom scanPositions
  have hne : ¬ bs.length = 0 := by omega
  simp only [hne, if_false, hw]
  rw [rrLoop_eq_find h bs (c + 1) bs.length 0 (by omega) (by omega), List.range_eq_range']

/-- With every backend alive the first position scanned is returned. -/
theorem GetNextValidPeer_all_alive (h : Heap) (bs : List Ptr) (c : Nat)
    (hl : 1 ≤ bs.length) (hov : c + 1 < 18446744073709551616)
    (ha : ∀ b ∈ bs, IsAlive h b = true) :
    GetNextValidPeer h ⟨bs, c⟩ = (⟨bs, c + 1⟩, bs[(c + 1) % bs.length]?) := by
  have hw : wrapUint64 (c + 1) = c + 1 := by
    unfold wrapUint64; exact Nat.mod_eq_of_lt (by omega)
  have hlt : (c + 1) % bs.length < bs.length := Nat.mod_lt _ (by omega)
  unfold GetNextValidPeer
  have hne : ¬ bs.length = 0 := by omega
  simp only [hne, if_false, hw]
  obtain ⟨n, hn⟩ : ∃ n, bs.length = n + 1 := ⟨bs.length - 1, by omega⟩
  have hal := ha bs[(c + 1) % bs.length] (List.getElem_mem _)
  conv_lhs => rw [hn]
  simp only [rrLoop, Nat.add_zero, hw]
  rw [← hn, List.getElem?_eq_getElem hlt]
  simp [hal]

theorem callsRR_all_alive (h : Heap) (bs : List Ptr) (c k : Nat)
    (hl : 1 ≤ bs.length) (hov : c + k < 18446744073709551616)
    (ha : ∀ b ∈ bs, IsAlive h b = true) :
    callsRR h ⟨bs, c⟩ k = (List.range' (c + 1) k).map (fun j => bs[j % bs.length]?) := by
  induction k generalizing c with
  | zero => rfl
  | succ k ih =>
    simp only [callsRR, GetNextValidPeer_all_alive h bs c hl (by omega) ha, List.range'_succ,
      List.map_cons]
    rw [ih (c + 1) (by omega)]

/-- A scan that finds nothing has met a dead backend at every position it
visited. -/
theorem rrLoop_none (h : Heap) (bs : List Ptr) (next k i0 : Nat) (hpos : 0 < bs.length)
    (hr : rrLoop h bs next bs.length k i0 = none) :
    ∀ i, i0 ≤ i → i < i0 + k →
      ∀ b, bs[wrapUint64 (next + i) % bs.length]? = some b → IsAlive h b = false := by
  induction k generalizing i0 with
  | zero => intro i h1 h2; omega
  | succ k ih =>
    have hlt : wrapUint64 (next + i0) % bs.length < bs.length := Nat.mod_lt _ hpos
    rw [rrLoop] at hr
    simp only [List.getElem?_eq_getElem hlt] at hr
    by_cases hc : IsAlive h bs[wrapUint64 (next + i0) % bs.length] = true
    · simp [hc] at hr
    · have hc2 : IsAlive h bs[wrapUint64 (next + i0) % bs.length] = false := by simpa using hc
      simp only [hc2] at hr
      intro i h1 h2 b hb
      rcases Nat.eq_or_lt_of_le h1 with e | hlt2
      · subst e
        rw [List.getElem?_eq_getElem hlt] at hb
        simp only [Option.some.injEq] at hb
        rw [← hb]; exact hc2
      · exact ih (i0 + 1) hr i (by omega) (by omega) b hb

/-- The positions `(c + 1 + i) mod l`, `i < l`, reach every index below `l`. -/
theorem scan_reaches (c l j : Nat) (hj : j < l) : ∃ i, i < l ∧ (c + 1 + i) % l = j := by
  have hdm : l * ((c + 1) / l) + (c + 1) % l = c + 1 := Nat.div_add_mod (c + 1) l
  have hr : (c + 1) % l < l := Nat.mod_lt _ (by omega)
  by_cases hjr : (c + 1) % l ≤ j
  · refine ⟨j - (c + 1) % l, by omega, ?_⟩
    have e : c + 1 + (j - (c + 1) % l) = l * ((c + 1) / l) + j := by omega
    rw [e, Nat.mul_add_mod, Nat.mod_eq_of_lt hj]
  · refine ⟨j + l - (c + 1) % l, by omega, ?_⟩
    have e : c + 1 + (j + l - (c + 1) % l) = l * ((c + 1) / l + 1) + j := by
      rw [Nat.mul_add, Nat.mul_one]; omega
    rw [e, Nat.mul_add_mod, Nat.mod_eq_of_lt hj]

/-- Away from the end of the `uint64` range `GetNextValidPeer` returns a
backend whenever one of the pool is alive. -/
theorem GetNextValidPeer_finds_live (h : Heap) (bs : List Ptr) (c : Nat)
    (hov : c + bs.length < 18446744073709551616) (hex : ∃ b ∈ bs, IsAlive h b = true) :
    ∃ b, (GetNextValidPeer h ⟨bs, c⟩).2 = some b := by
  obtain ⟨b, hb, hba⟩ := hex
  obtain ⟨j, hj, hjb⟩ := List.getElem_of_mem hb
  have hpos : 0 < bs.length := by omega
  have hne : ¬ bs.length = 0 := by omega
  have hw : wrapUint64 (c + 1) = c + 1 := by
    unfold wrapUint64; exact Nat.mod_eq_of_lt (by omega)
  cases hr : (GetNextValidPeer h ⟨bs, c⟩).2 with
  | some x => exact ⟨x, rfl⟩
  | none =>
    exfalso
    unfold GetNextValidPeer at hr
    simp only [hne, if_false, hw] at hr
    obtain ⟨i, hi, hij⟩ := scan_reaches c bs.length j hj
    have hwi : wrapUint64 (c + 1 + i) = c + 1 + i := by
      unfold wrapUint64; exact Nat.mod_eq_of_lt (by omega)
    have hd := rrLoop_none h bs (c + 1) bs.length 0 hpos hr i (by omega) (by omega) b
      (by rw [hwi, hij, List.getElem?_eq_getElem hj, hjb])
    rw [hd] at hba
    exact Bool.false_ne_true hba

/-! ## GetLeastConnectedPeer -/

theorem leastLoop_some (h : Heap) (bs : List Ptr) (sel : Option Ptr) (m : Int) (b : Ptr)
    (hr : leastLoop h bs sel m = some b) :
    sel = some b ∨ (b ∈ bs ∧ IsAlive h b = true) := by
  induction bs generalizing sel m with
  | nil => left; simpa [leastLoop] using hr
  | cons c rest ih =>
    simp only [leastLoop] at hr
    by_cases hc : IsAlive h c = true
    · simp only [hc, Bool.not_true, Bool.false_eq_true, if_false] at hr
      by_cases hm : m = -1 ∨ GetConnections h c < m
      · simp only [hm, if_true] at hr
        rcases ih _ _ hr with h1 | ⟨h1, h2⟩
        · simp only [Option.some.injEq] at h1
          subst h1
          exact Or.inr ⟨List.mem_cons_self _ _, hc⟩
        · exact Or.inr ⟨List.mem_cons_of_mem _ h1, h2⟩
      · simp only [hm, if_false] at hr
        rcases ih _ _ hr with h1 | ⟨h1, h2⟩
        · exact Or.inl h1
        · exact Or.inr ⟨List.mem_cons_of_mem _ h1, h2⟩
    · have hc2 : IsAlive h c = false := by simpa using hc
      simp only [hc2, Bool.not_false, if_true] at hr
      rcases ih _ _ hr with h1 | ⟨h1, h2⟩
      · exact Or.inl h1
      · exact Or.inr ⟨List.mem_cons_of_mem _ h1, h2⟩

theorem leastLoop_all_dead (h : Heap) (bs : List Ptr) (sel : Option Ptr) (m : Int)
    (hd : ∀ b ∈ bs, IsAlive h b = false) : leastLoop h bs sel m = sel := by
  induction bs generalizing sel m with
  | nil => rfl
  | cons c rest ih =>
    have hc := hd c (List.mem_cons_self _ _)
    simp only [leastLoop, hc, Bool.not_false, if_true]
    exact ih _ _ (fun b hb => hd b (List.mem_cons_of_mem _ hb))

theorem GetLeastConnectedPeer_some (h : Heap) (s : ServerPool) (b : Ptr)
    (hr : GetLeastConnectedPeer h s = some b) : b ∈ s.Backends ∧ IsAlive h b = true := by
  rcases leastLoop_some h s.Backends none (-1) b hr with h1 | h1
  · simp at h1
  · exact h1

theorem GetLeastConnectedPeer_all_dead (h : Heap) (s : ServerPool)
    (hd : ∀ b ∈ s.Backends, IsAlive h b = false) : GetLeastConnectedPeer h s = none :=
  leastLoop_all_dead h s.Backends none (-1) hd

/-- The loop once a candidate `a` is held, all counters being non-negative:
either `a` stays, being no larger than any alive backend of the rest, or the
first alive backend of the rest that is strictly smaller than everything before
it and minimal overall is returned. -/
theorem leastLoop_held (h : Heap) (bs : List Ptr) (a : Ptr)
    (ha : 0 ≤ GetConnections h a) (hnn : ∀ x ∈ bs, 0 ≤ GetConnections h x) :
    (leastLoop h bs (some a) (GetConnections h a) = some a ∧
      ∀ x ∈ bs, IsAlive h x = true → GetConnections h a ≤ GetConnections h x) ∨
    (∃ pre b post, bs = pre ++ b :: post ∧
      leastLoop h bs (some a) (GetConnections h a) = some b ∧ IsAlive h b = true ∧
      GetConnections h b < GetConnections h a ∧
      (∀ x ∈ bs, IsAlive h x = true → GetConnections h b ≤ GetConnections h x) ∧
      (∀ x ∈ pre, IsAlive h x = true → GetConnections h b < GetConnections h x)) := by
  induction bs generalizing a with
  | nil => left; simp [leastLoop]
  | cons c rest ih =>
    have hnn2 : ∀ x ∈ rest, 0 ≤ GetConnections h x :=
      fun x hx => hnn x (List.mem_cons_of_mem _ hx)
    by_cases hc : IsAlive h c = true
    · by_cases hlt : GetConnections h c < GetConnections h a
      · have hstep : leastLoop h (c :: rest) (some a) (GetConnections h a)
            = leastLoop h rest (some c) (GetConnections h c) := by
          simp [leastLoop, hc, hlt]
        rw [hstep]
        right
        rcases ih c (hnn c (List.mem_cons_self _ _)) hnn2 with ⟨h1, h2⟩ | ⟨pre, b, post, e, h1, h2, h3, h4, h5⟩
        · refine ⟨[], c, rest, rfl, h1, hc, hlt, ?_, by simp⟩
          intro x hx hxa
          rcases List.mem_cons.mp hx with rfl | hx
          · exact le_refl _
          · exact h2 x hx hxa
        · refine ⟨c :: pre, b, post, by simp [e], h1, h2, lt_trans h3 hlt, ?_, ?_⟩
          · intro x hx hxa
            rcases List.mem_cons.mp hx with rfl | hx
            · exact le_of_lt h3
            · exact h4 x hx hxa
          · intro x hx hxa
            rcases List.mem_cons.mp hx with rfl | hx
            · exact h3
            · exact h5 x hx hxa
      · have hne : ¬ (GetConnections h a = -1) := by omega
        have hstep : leastLoop h (c :: rest) (some a) (GetConnections h a)
            = leastLoop h rest (some a) (GetConnections h a) := by
          simp [leastLoop, hc, hlt, hne]
        rw [hstep]
        rcases ih a ha hnn2 with ⟨h1, h2⟩ | ⟨pre, b, post, e, h1, h2, h3, h4, h5⟩
        · left
          refine ⟨h1, ?_⟩
          intro x hx hxa
          rcases List.mem_cons.mp hx with rfl | hx
          · omega
          · exact h2 x hx hxa
        · right
          refine ⟨c :: pre, b, post, by simp [e], h1, h2, h3, ?_, ?_⟩
          · intro x hx hxa
            rcases List.mem_cons.mp hx with rfl | hx
            · omega
            · exact h4 x hx hxa
          · intro x hx hxa
            rcases List.mem_cons.mp hx with rfl | hx
            · omega
            · exact h5 x hx hxa
    · have hc2 : IsAlive h c = false := by simpa using hc
      have hstep : leastLoop h (c :: rest) (some a) (GetConnections h a)
          = leastLoop h rest (some a) (GetConnections h a) := by
        simp [leastLoop, hc2]
      rw [hstep]
      rcases ih a ha hnn2 with ⟨h1, h2⟩ | ⟨pre, b, post, e, h1, h2, h3, h4, h5⟩
      · left
        refine ⟨h1, ?_⟩
        intro x hx hxa
        rcases List.mem_cons.mp hx with rfl | hx
        · simp [hc2] at hxa
        · exact h2 x hx hxa
      · right
        refine ⟨c :: pre, b, post, by simp [e], h1, h2, h3, ?_, ?_⟩
        · intro x hx hxa
          rcases List.mem_cons.mp hx with rfl | hx
          · simp [hc2] at hxa
          · exact h4 x hx hxa
        · intro x hx hxa
          rcases List.mem_cons.mp hx with rfl | hx
          · simp [hc2] at hxa
          · exact h5 x hx hxa

/-- The loop from its initial state `selected = nil`, `minConns = -1`. -/
theorem leastLoop_fresh (h : Heap) (bs : List Ptr)
    (hnn : ∀ x ∈ bs, 0 ≤ GetConnections h x) (hex : ∃ x ∈ bs, IsAlive h x = true) :
    ∃ pre b post, bs = pre ++ b :: post ∧
      leastLoop h bs none (-1) = some b ∧ IsAlive h b = true ∧
      (∀ x ∈ bs, IsAlive h x = true → GetConnections h b ≤ GetConnections h x) ∧
      (∀ x ∈ pre, IsAlive h x = true → GetConnections h b < GetConnections h x) := by
  induction bs with
  | nil => simp at hex
  | cons c rest ih =>
    have hnn2 : ∀ x ∈ rest, 0 ≤ GetConnections h x :=
      fun x hx => hnn x (List.mem_cons_of_mem _ hx)
    by_cases hc : IsAlive h c = true
    · have hstep : leastLoop h (c :: rest) none (-1)
          = leastLoop h rest (some c) (GetConnections h c) := by
        simp [leastLoop, hc]
      rw [hstep]
      rcases leastLoop_held h rest c (hnn c (List.mem_cons_self _ _)) hnn2 with
        ⟨h1, h2⟩ | ⟨pre, b, post, e, h1, h2, h3, h4, h5⟩
      · refine ⟨[], c, rest, rfl, h1, hc, ?_, by simp⟩
        intro x hx hxa
        rcases List.mem_cons.mp hx with rfl | hx
        · exact le_refl _
        · exact h2 x hx hxa
      · refine ⟨c :: pre, b, post, by simp [e], h1, h2, ?_, ?_⟩
        · intro x hx hxa
          rcases List.mem_cons.mp hx with rfl | hx
          · exact le_of_lt h3
          · exact h4 x hx hxa
        · intro x hx hxa
          rcases List.mem_cons.mp hx with rfl | hx
          · exact h3
          · exact h5 x hx hxa
    · have hc2 : IsAlive h c = false := by simpa using hc
      have hstep : leastLoop h (c :: rest) none (-1) = leastLoop h rest none (-1) := by
        simp [leastLoop, hc2]
      rw [hstep]
      have hex2 : ∃ x ∈ rest, IsAlive h x = true := by
        obtain ⟨x, hx, hxa⟩ := hex
        rcases List.mem_cons.mp hx with rfl | hx
        · simp [hc2] at hxa
        · exact ⟨x, hx, hxa⟩
      obtain ⟨pre, b, post, e, h1, h2, h4, h5⟩ := ih hnn2 hex2
      refine ⟨c :: pre, b, post, by simp [e], h1, h2, ?_, ?_⟩
      · intro x hx hxa
        rcases List.mem_cons.mp hx with rfl | hx
        · simp [hc2] at hxa
        · exact h4 x hx hxa
      · intro x hx hxa
        rcases List.mem_cons.mp hx with rfl | hx
        · simp [hc2] at hxa
        · exact h5 x hx hxa

/-! ## Selection: the claims -/

/-- C2: `GetNextValidPeer` on the pool `[dead, dead, alive]` with the cursor at
`2^64 - 2` returns `nil` although the third backend is alive: `next` is
`2^64 - 1`, the sum `next + i` wraps, the loop visits the indices 0, 0, 1 and
never 2.  At cursor 0 the same pool yields the live backend. -/
theorem C2_getNextValidPeer_misses_live_backend_on_wrap :
    (GetNextValidPeer heapLastAlive ⟨[0, 1, 2], 18446744073709551614⟩).2 = none ∧
    (2 ∈ [0, 1, 2] ∧ IsAlive heapLastAlive 2 = true) ∧
    [0, 1, 2].map (fun i => wrapUint64 (18446744073709551615 + i) % 3) = [0, 0, 1] ∧
    (GetNextValidPeer heapLastAlive ⟨[0, 1, 2], 0⟩).2 = some 2 := by
  decide

/-- C3: a backend returned by `GetNextValidPeer` or by `GetLeastConnectedPeer`
is a member of the pool and alive; on an empty pool and on a pool whose
backends are all dead both return `nil`. -/
theorem C3_selected_is_alive_member (h : Heap) (s : ServerPool) :
    (∀ b, (GetNextValidPeer h s).2 = some b → b ∈ s.Backends ∧ IsAlive h b = true) ∧
    (∀ b, GetLeastConnectedPeer h s = some b → b ∈ s.Backends ∧ IsAlive h b = true) ∧
    ((s.Backends = [] ∨ ∀ b ∈ s.Backends, IsAlive h b = false) →
      (GetNextValidPeer h s).2 = none ∧ GetLeastConnectedPeer h s = none) := by
  refine ⟨GetNextValidPeer_some h s, GetLeastConnectedPeer_some h s, ?_⟩
  intro hd
  have hd2 : ∀ b ∈ s.Backends, IsAlive h b = false := by
    rcases hd with he | hd
    · intro b hb; simp [he] at hb
    · exact hd
  exact ⟨GetNextValidPeer_all_dead h s hd2, GetLeastConnectedPeer_all_dead h s hd2⟩

/-- C3 at the pool `[dead, dead, alive]`, where both selectors return the
third backend, and at the pool of the two dead ones, where both return `nil`. -/
theorem C3_selected_is_alive_member_witness :
    (GetNextValidPeer heapLastAlive ⟨[0, 1, 2], 0⟩).2 = some 2 ∧
    GetLeastConnectedPeer heapLastAlive ⟨[0, 1, 2], 0⟩ = some 2 ∧
    (2 ∈ [0, 1, 2] ∧ IsAlive heapLastAlive 2 = true) ∧
    ((GetNextValidPeer heapLastAlive ⟨[0, 1], 0⟩).2 = none ∧
      GetLeastConnectedPeer heapLastAlive ⟨[0, 1], 0⟩ = none) :=
  ⟨by decide, by decide,
    (C3_selected_is_alive_member heapLastAlive ⟨[0, 1, 2], 0⟩).1 2 (by decide),
    (C3_selected_is_alive_member heapLastAlive ⟨[0, 1], 0⟩).2.2 (Or.inr (by decide))⟩

/-- C4: with non-negative counters and an alive backend in the pool,
`GetLeastConnectedPeer` returns an alive backend of the pool whose counter is
minimal among the alive ones and strictly below that of every alive backend
before it in insertion order. -/
theorem C4_least_connected_first_minimum (h : Heap) (s : ServerPool)
    (hnn : ∀ x ∈ s.Backends, 0 ≤ GetConnections h x)
    (hex : ∃ x ∈ s.Backends, IsAlive h x = true) :
    ∃ pre b post, s.Backends = pre ++ b :: post ∧
      GetLeastConnectedPeer h s = some b ∧ IsAlive h b = true ∧
      (∀ x ∈ s.Backends, IsAlive h x = true → GetConnections h b ≤ GetConnections h x) ∧
      (∀ x ∈ pre, IsAlive h x = true → GetConnections h b < GetConnections h x) :=
  leastLoop_fresh h s.Backends hnn hex

/-- C4 at the pool `[A, B]`, both alive, A with 5 connections and B with none:
B is returned. -/
theorem C4_least_connected_first_minimum_witness :
    (∀ x ∈ [0, 1], 0 ≤ GetConnections heapAB x) ∧
    GetLeastConnectedPeer heapAB ⟨[0, 1], 0⟩ = some 1 ∧
    ∃ pre b post, [0, 1] = pre ++ b :: post ∧
      GetLeastConnectedPeer heapAB ⟨[0, 1], 0⟩ = some b ∧ IsAlive heapAB b = true ∧
      (∀ x ∈ [0, 1], IsAlive heapAB x = true → GetConnections heapAB b ≤ GetConnections heapAB x) ∧
      (∀ x ∈ pre, IsAlive heapAB x = true → GetConnections heapAB b < GetConnections heapAB x) :=
  ⟨by decide, by decide,
    C4_least_connected_first_minimum heapAB ⟨[0, 1], 0⟩ (by decide) ⟨1, by decide, by decide⟩⟩

/-! ## Removal and selection -/

/-- C5 as stated fails: with two backends of one URL, after `RemoveBackend` of
that URL has returned true both selectors return the remaining backend, whose
URL string is the removed one. -/
theorem C5_duplicate_url_still_selected :
    (RemoveBackend heapSameURL ⟨[0, 1], 0⟩ "http://127.0.0.1:9001").2 = true ∧
    (GetNextValidPeer heapSameURL
      (RemoveBackend heapSameURL ⟨[0, 1], 0⟩ "http://127.0.0.1:9001").1).2 = some 1 ∧
    GetLeastConnectedPeer heapSameURL
      (RemoveBackend heapSameURL ⟨[0, 1], 0⟩ "http://127.0.0.1:9001").1 = some 1 ∧
    (heapSameURL 1).URL = "http://127.0.0.1:9001" := by
  decide

/-- C5, amended: when at most one backend of the pool has the URL string `u`
and `RemoveBackend u` has returned true, then on the resulting membership,
whatever the cursor and whatever the liveness flags and counters have become
(`h2` agrees with `h` on URLs only), neither selector returns a backend whose
URL string is `u`. -/
theorem C5_removed_url_never_selected (h h2 : Heap) (s : ServerPool) (u : String) (c : Nat)
    (huniq : s.Backends.countP (fun x => decide ((h x).URL = u)) ≤ 1)
    (hrem : (RemoveBackend h s u).2 = true)
    (hurl : ∀ x, (h2 x).URL = (h x).URL) :
    (∀ b, (GetNextValidPeer h2 ⟨(RemoveBackend h s u).1.Backends, c⟩).2 = some b →
      (h2 b).URL ≠ u) ∧
    (∀ b, GetLeastConnectedPeer h2 ⟨(RemoveBackend h s u).1.Backends, c⟩ = some b →
      (h2 b).URL ≠ u) := by
  obtain ⟨pre, b0, post, h1, hb0, hpre, hres⟩ := RemoveBackend_true h s u hrem
  have hpost : ∀ x ∈ post, (h x).URL ≠ u := by
    rw [h1] at huniq
    simp only [List.countP_append, List.countP_cons, hb0, decide_True, if_true] at huniq
    have h0 : List.countP (fun x => decide ((h x).URL = u)) post = 0 := by omega
    intro x hx
    have := (List.countP_eq_zero.mp h0) x hx
    simpa using this
  have hall : ∀ x ∈ (RemoveBackend h s u).1.Backends, (h2 x).URL ≠ u := by
    rw [hres]
    intro x hx
    rw [hurl x]
    rcases List.mem_append.mp hx with hx | hx
    · exact hpre x hx
    · exact hpost x hx
  constructor
  · intro b hb
    exact hall b (GetNextValidPeer_some h2 _ b hb).1
  · intro b hb
    exact hall b (GetLeastConnectedPeer_some h2 _ b hb).1

/-- C5, amended, at the pool `[9001, 9002, 9003]` of distinct URLs: after the
removal of 9001 round-robin returns the backend of 9003. -/
theorem C5_removed_url_never_selected_witness :
    (GetNextValidPeer heapLastAlive
      ⟨(RemoveBackend heapLastAlive ⟨[0, 1, 2], 0⟩ "http://127.0.0.1:9001").1.Backends, 4⟩).2
      = some 2 ∧
    ((∀ b, (GetNextValidPeer heapLastAlive
        ⟨(RemoveBackend heapLastAlive ⟨[0, 1, 2], 0⟩ "http://127.0.0.1:9001").1.Backends, 4⟩).2
        = some b → (heapLastAlive b).URL ≠ "http://127.0.0.1:9001") ∧
    (∀ b, GetLeastConnectedPeer heapLastAlive
        ⟨(RemoveBackend heapLastAlive ⟨[0, 1, 2], 0⟩ "http://127.0.0.1:9001").1.Backends, 4⟩
        = some b → (heapLastAlive b).URL ≠ "http://127.0.0.1:9001")) :=
  ⟨by decide, C5_removed_url_never_selected heapLastAlive heapLastAlive ⟨[0, 1, 2], 0⟩
    "http://127.0.0.1:9001" 4 (by decide) (by decide) (fun _ => rfl)⟩

/-- C6: `AddBackend b` followed by `RemoveBackend` of `b`'s URL string returns
true and leaves a pool with the URL strings of the original pool, as a set. -/
theorem C6_add_then_remove_same_urls (h : Heap) (s : ServerPool) (b : Ptr) :
    (RemoveBackend h (AddBackend s b) (h b).URL).2 = true ∧
    ∀ u, u ∈ (RemoveBackend h (AddBackend s b) (h b).URL).1.Backends.map (fun x => (h x).URL)
      ↔ u ∈ s.Backends.map (fun x => (h x).URL) := by
  have ht : (RemoveBackend h (AddBackend s b) (h b).URL).2 = true :=
    (RemoveBackend_true_iff h _ _).mpr ⟨b, by simp [AddBackend], rfl⟩
  refine ⟨ht, ?_⟩
  obtain ⟨pre, c, post, h1, hc, _, hres⟩ := RemoveBackend_true h _ _ ht
  rw [hres]
  simp only [AddBackend] at h1 ⊢
  rcases List.eq_nil_or_concat post with rfl | ⟨post2, x, rfl⟩
  · have h2 := List.append_inj_left' h1 (by simp)
    intro u
    rw [h2]
    simp
  · have h3 : s.Backends ++ [b] = (pre ++ c :: post2) ++ [x] := by
      rw [h1]; simp
    have h2 := List.append_inj' h3 (by simp)
    obtain ⟨h4, h5⟩ := h2
    simp only [List.cons.injEq, and_true] at h5
    subst h5
    intro u
    rw [h4]
    simp only [List.concat_eq_append, List.map_append, List.map_cons, List.map_nil,
      List.mem_append, List.mem_cons, List.not_mem_nil, or_false, hc]
    tauto

/-! ## SetBackendStatus and the proxy handler -/

theorem setStatusLoop_first (h : Heap) (u : String) (alive : Bool) (pre post : List Ptr)
    (b : Ptr) (hb : (h b).URL = u) (hpre : ∀ x ∈ pre, (h x).URL ≠ u) :
    setStatusLoop h u alive (pre ++ b :: post) = SetAlive h b alive := by
  induction pre with
  | nil => simp [setStatusLoop, hb]
  | cons c rest ih =>
    have hc : ¬ (h c).URL = u := hpre c (List.mem_cons_self _ _)
    simp only [List.cons_append, setStatusLoop, hc, if_false]
    exact ih (fun x hx => hpre x (List.mem_cons_of_mem _ hx))

theorem setStatusLoop_absent (h : Heap) (u : String) (alive : Bool) (bs : List Ptr)
    (hno : ∀ x ∈ bs, (h x).URL ≠ u) : setStatusLoop h u alive bs = h := by
  induction bs with
  | nil => rfl
  | cons c rest ih =>
    have hc : ¬ (h c).URL = u := hno c (List.mem_cons_self _ _)
    simp only [setStatusLoop, hc, if_false]
    exact ih (fun x hx => hno x (List.mem_cons_of_mem _ hx))

theorem SetAlive_URL (h : Heap) (b : Ptr) (alive : Bool) (x : Ptr) :
    (SetAlive h b alive x).URL = (h x).URL := by
  unfold SetAlive
  by_cases hx : x = b
  · subst hx; simp
  · simp [Function.update_noteq hx]

theorem IncrementConnections_URL (h : Heap) (b x : Ptr) :
    (IncrementConnections h b x).URL = (h x).URL := by
  unfold IncrementConnections
  by_cases hx : x = b
  · subst hx; simp
  · simp [Function.update_noteq hx]

theorem DecrementConnections_Alive (h : Heap) (b x : Ptr) :
    IsAlive (DecrementConnections h b) x = IsAlive h x := by
  unfold DecrementConnections IsAlive
  by_cases hx : x = b
  · subst hx; simp
  · simp [Function.update_noteq hx]

theorem selectPeer_some (p : ProxyServer) (b : Ptr) (hr : (selectPeer p).2 = some b) :
    b ∈ p.serverPool.Backends ∧ IsAlive p.heap b = true := by
  unfold selectPeer at hr
  by_cases hs : p.Strategy = "least-conn"
  · simp only [hs, if_true] at hr
    exact GetLeastConnectedPeer_some p.heap p.serverPool b hr
  · simp only [hs, if_false] at hr
    exact GetNextValidPeer_some p.heap p.serverPool b hr

theorem selectPeer_all_dead (p : ProxyServer)
    (hd : ∀ b ∈ p.serverPool.Backends, IsAlive p.heap b = false) : (selectPeer p).2 = none := by
  unfold selectPeer
  by_cases hs : p.Strategy = "least-conn"
  · simp only [hs, if_true]
    exact GetLeastConnectedPeer_all_dead p.heap p.serverPool hd
  · simp only [hs, if_false]
    exact GetNextValidPeer_all_dead p.heap p.serverPool hd

theorem selectPeer_Backends (p : ProxyServer) :
    (selectPeer p).1.Backends = p.serverPool.Backends := by
  unfold selectPeer
  by_cases hs : p.Strategy = "least-conn"
  · simp [hs]
  · simp only [hs, if_false]
    exact GetNextValidPeer_Backends p.heap p.serverPool

theorem handlerBegin_none (p : ProxyServer) (hr : (selectPeer p).2 = none) :
    handlerBegin p = ({ p with serverPool := (selectPeer p).1 }, none) := by
  unfold handlerBegin
  generalize selectPeer p = sp at hr
  obtain ⟨pool, r⟩ := sp
  simp only at hr
  subst hr
  rfl

theorem handlerBegin_some (p : ProxyServer) (b : Ptr) (hr : (selectPeer p).2 = some b) :
    handlerBegin p =
      ({ p with serverPool := (selectPeer p).1, heap := IncrementConnections p.heap b },
        some b) := by
  unfold handlerBegin
  generalize selectPeer p = sp at hr
  obtain ⟨pool, r⟩ := sp
  simp only at hr
  subst hr
  rfl

/-- The error handler marks the first backend of the pool that shares the URL
string of the failed one. -/
theorem errorHandler_first (p : ProxyServer) (b c : Ptr) (pre post : List Ptr)
    (hmem : p.serverPool.Backends = pre ++ c :: post)
    (hc : (p.heap c).URL = (p.heap b).URL)
    (hfirst : ∀ x ∈ pre, (p.heap x).URL ≠ (p.heap b).URL) :
    errorHandler p b = ({ p with heap := SetAlive p.heap c false }, 502) := by
  unfold errorHandler SetBackendStatus
  rw [hmem, setStatusLoop_first p.heap _ false pre post c hc hfirst]

/-- With no backend of that URL string in the pool the error handler changes
no backend object. -/
theorem errorHandler_absent (p : ProxyServer) (b : Ptr)
    (hno : ∀ x ∈ p.serverPool.Backends, (p.heap x).URL ≠ (p.heap b).URL) :
    errorHandler p b = (p, 502) := by
  unfold errorHandler SetBackendStatus
  rw [setStatusLoop_absent p.heap _ false _ hno]

theorem IsAlive_SetAlive_self (h : Heap) (c : Ptr) (alive : Bool) :
    IsAlive (SetAlive h c alive) c = alive := by
  simp [IsAlive, SetAlive]

theorem SetAlive_other (h : Heap) (c x : Ptr) (alive : Bool) (hx : x ≠ c) :
    SetAlive h c alive x = h x := by
  simp [SetAlive, Function.update_noteq hx]

/-- A whole run of the handler whose forwarding fails at transport level, seen
through the selection it made. -/
theorem proxyHandler_failure (p : ProxyServer) (b : Ptr)
    (hsel : (selectPeer p).2 = some b) :
    proxyHandler p none =
      (handlerEnd (errorHandler
          ⟨p.Strategy, IncrementConnections p.heap b, (selectPeer p).1⟩ b).1 b,
        { status := 502, forwardedTo := some b }) := by
  unfold proxyHandler
  rw [handlerBegin_some p b hsel]
  rfl

theorem proxyHandler_forwardedTo (p : ProxyServer) (upstream : Option Nat) :
    (proxyHandler p upstream).2.forwardedTo = (selectPeer p).2 ∧
    (proxyHandler p upstream).1.serverPool = (selectPeer p).1 := by
  unfold proxyHandler
  cases hsel : (selectPeer p).2 with
  | none => rw [handlerBegin_none p hsel]; exact ⟨rfl, rfl⟩
  | some b =>
    rw [handlerBegin_some p b hsel]
    cases upstream with
    | none => exact ⟨rfl, rfl⟩
    | some st => exact ⟨rfl, rfl⟩

/-- C7 as stated fails: in a round-robin pool of two backends with one URL the
handler selects the second, forwarding fails, the client gets 502, and the
error path marks the first backend dead; the selected one stays alive. -/
theorem C7_duplicate_url_marks_other_backend :
    (proxyHandler proxyDup none).2 = { status := 502, forwardedTo := some 1 } ∧
    IsAlive (proxyHandler proxyDup none).1.heap 1 = true ∧
    IsAlive (proxyHandler proxyDup none).1.heap 0 = false ∧
    IsAlive (errorHandler proxyDup 1).1.heap 1 = true := by
  decide

/-- C7, amended: for every pool content at the time of the failure and every
failed backend `b` the error path answers 502 and leaves the membership as it
is; it sets alive = false on the first backend of the pool whose URL string
equals `b`'s and changes no other backend object, and changes nothing when
the pool has no backend of that URL string; so `b` itself ends dead whenever
it is in the pool with no backend of its URL string before it.  A whole run of
the handler that forwards to `b` and fails at transport level answers 502 and
leaves that first backend dead, `b` itself under the same condition. -/
theorem C7_error_path_marks_first_url_match (p : ProxyServer) (b : Ptr) :
    ((errorHandler p b).2 = 502 ∧
      (errorHandler p b).1.serverPool = p.serverPool ∧
      (∀ pre c post, p.serverPool.Backends = pre ++ c :: post →
        (p.heap c).URL = (p.heap b).URL →
        (∀ x ∈ pre, (p.heap x).URL ≠ (p.heap b).URL) →
        IsAlive (errorHandler p b).1.heap c = false ∧
        ∀ x, x ≠ c → (errorHandler p b).1.heap x = p.heap x) ∧
      ((∀ x ∈ p.serverPool.Backends, (p.heap x).URL ≠ (p.heap b).URL) →
        (errorHandler p b).1.heap = p.heap) ∧
      (∀ pre post, p.serverPool.Backends = pre ++ b :: post →
        (∀ x ∈ pre, (p.heap x).URL ≠ (p.heap b).URL) →
        IsAlive (errorHandler p b).1.heap b = false)) ∧
    ((proxyHandler p none).2.forwardedTo = some b →
      (proxyHandler p none).2.status = 502 ∧
      (∀ pre c post, p.serverPool.Backends = pre ++ c :: post →
        (p.heap c).URL = (p.heap b).URL →
        (∀ x ∈ pre, (p.heap x).URL ≠ (p.heap b).URL) →
        IsAlive (proxyHandler p none).1.heap c = false) ∧
      (∀ pre post, p.serverPool.Backends = pre ++ b :: post →
        (∀ x ∈ pre, (p.heap x).URL ≠ (p.heap b).URL) →
        IsAlive (proxyHandler p none).1.heap b = false)) := by
  have hgen : ∀ pre c post, p.serverPool.Backends = pre ++ c :: post →
      (p.heap c).URL = (p.heap b).URL →
      (∀ x ∈ pre, (p.heap x).URL ≠ (p.heap b).URL) →
      IsAlive (errorHandler p b).1.heap c = false ∧
      ∀ x, x ≠ c → (errorHandler p b).1.heap x = p.heap x := by
    intro pre c post hmem hc hfirst
    rw [errorHandler_first p b c pre post hmem hc hfirst]
    exact ⟨IsAlive_SetAlive_self p.heap c false, fun x hx => SetAlive_other p.heap c x false hx⟩
  have hrun : (proxyHandler p none).2.forwardedTo = some b →
      (proxyHandler p none).2.status = 502 ∧
      ∀ pre c post, p.serverPool.Backends = pre ++ c :: post →
        (p.heap c).URL = (p.heap b).URL →
        (∀ x ∈ pre, (p.heap x).URL ≠ (p.heap b).URL) →
        IsAlive (proxyHandler p none).1.heap c = false := by
    intro hf
    have hsel : (selectPeer p).2 = some b := by
      rw [← (proxyHandler_forwardedTo p none).1]; exact hf
    rw [proxyHandler_failure p b hsel]
    refine ⟨rfl, ?_⟩
    intro pre c post hmem hc hfirst
    have hE := errorHandler_first
      ⟨p.Strategy, IncrementConnections p.heap b, (selectPeer p).1⟩ b c pre post
      (by simp only [selectPeer_Backends, hmem])
      (by simp only [IncrementConnections_URL]; exact hc)
      (by intro x hx; simp only [IncrementConnections_URL]; exact hfirst x hx)
    simp only [hE, handlerEnd, DecrementConnections_Alive]
    exact IsAlive_SetAlive_self _ c false
  refine ⟨⟨rfl, rfl, hgen, ?_, ?_⟩, ?_⟩
  · intro hno
    rw [errorHandler_absent p b hno]
  · intro pre post hmem hfirst
    exact (hgen pre b post hmem rfl hfirst).1
  · intro hf
    obtain ⟨h1, h2⟩ := hrun hf
    exact ⟨h1, h2, fun pre post hmem hfirst => h2 pre b post hmem rfl hfirst⟩

/-- C7, amended, at the pool `[A, B]` of distinct URLs, where round-robin
selects `B`, forwarding fails, `B` ends dead and the client gets 502; and at
the pool of two backends with one URL, where the error path for the second
marks the first. -/
theorem C7_error_path_marks_first_url_match_witness :
    (proxyHandler proxyAB none).2.forwardedTo = some 1 ∧
    (errorHandler proxyAB 1).2 = 502 ∧
    (IsAlive (errorHandler proxyAB 1).1.heap 1 = false ∧
      ∀ x, x ≠ 1 → (errorHandler proxyAB 1).1.heap x = proxyAB.heap x) ∧
    ((proxyHandler proxyAB none).2.status = 502 ∧
      IsAlive (proxyHandler proxyAB none).1.heap 1 = false) ∧
    (IsAlive (errorHandler proxyDup 1).1.heap 0 = false ∧
      ∀ x, x ≠ 0 → (errorHandler proxyDup 1).1.heap x = proxyDup.heap x) :=
  ⟨by decide,
    (C7_error_path_marks_first_url_match proxyAB 1).1.1,
    (C7_error_path_marks_first_url_match proxyAB 1).1.2.2.1 [0] 1 [] (by decide) (by decide)
      (by decide),
    ⟨((C7_error_path_marks_first_url_match proxyAB 1).2 (by decide)).1,
      ((C7_error_path_marks_first_url_match proxyAB 1).2 (by decide)).2.2 [0] []
        (by decide) (by decide)⟩,
    (C7_error_path_marks_first_url_match proxyDup 1).1.2.2.1 [] 0 [1] (by decide) (by decide)
      (by decide)⟩

/-- C9: on a pool that is empty or all dead the handler answers 503 and
forwards to no backend, whatever the strategy string and whatever forwarding
would have done; membership, strategy and every backend object (liveness flag
and counter) are unchanged.  On every pool the handler under the string
"least-conn" forwards to the backend `GetLeastConnectedPeer` returns and
leaves the cursor alone, and under every other string it forwards to the
backend `GetNextValidPeer` returns and leaves the pool that call leaves. -/
theorem C9_no_live_backend_answers_503 (p : ProxyServer) (upstream : Option Nat) :
    ((p.serverPool.Backends = [] ∨ ∀ b ∈ p.serverPool.Backends, IsAlive p.heap b = false) →
      (proxyHandler p upstream).2 = { status := 503, forwardedTo := none } ∧
      (proxyHandler p upstream).1.serverPool.Backends = p.serverPool.Backends ∧
      (proxyHandler p upstream).1.heap = p.heap ∧
      (proxyHandler p upstream).1.Strategy = p.Strategy) ∧
    (p.Strategy = "least-conn" →
      (proxyHandler p upstream).2.forwardedTo = GetLeastConnectedPeer p.heap p.serverPool ∧
      (proxyHandler p upstream).1.serverPool = p.serverPool ∧
      selectPeer p = (p.serverPool, GetLeastConnectedPeer p.heap p.serverPool)) ∧
    (p.Strategy ≠ "least-conn" →
      (proxyHandler p upstream).2.forwardedTo = (GetNextValidPeer p.heap p.serverPool).2 ∧
      (proxyHandler p upstream).1.serverPool = (GetNextValidPeer p.heap p.serverPool).1 ∧
      selectPeer p = GetNextValidPeer p.heap p.serverPool) ∧
    ((proxyHandler p upstream).2.forwardedTo = none →
      (proxyHandler p upstream).2.status = 503 ∧ (proxyHandler p upstream).1.heap = p.heap) := by
  obtain ⟨hfw, hpool⟩ := proxyHandler_forwardedTo p upstream
  have hnone : (selectPeer p).2 = none →
      proxyHandler p upstream
        = ({ p with serverPool := (selectPeer p).1 }, { status := 503, forwardedTo := none }) := by
    intro hsel
    unfold proxyHandler
    rw [handlerBegin_none p hsel]
  refine ⟨?_, ?_, ?_, ?_⟩
  · intro hdead
    have hd2 : ∀ b ∈ p.serverPool.Backends, IsAlive p.heap b = false := by
      rcases hdead with he | hd
      · intro b hb; simp [he] at hb
      · exact hd
    rw [hnone (selectPeer_all_dead p hd2)]
    exact ⟨rfl, selectPeer_Backends p, rfl, rfl⟩
  · intro hs
    have e : selectPeer p = (p.serverPool, GetLeastConnectedPeer p.heap p.serverPool) := by
      simp [selectPeer, hs]
    rw [hfw, hpool, e]
    exact ⟨rfl, rfl, rfl⟩
  · intro hs
    have e : selectPeer p = GetNextValidPeer p.heap p.serverPool := by
      simp [selectPeer, hs]
    rw [hfw, hpool, e]
    exact ⟨rfl, rfl, rfl⟩
  · intro hf
    rw [hfw] at hf
    rw [hnone hf]
    exact ⟨rfl, rfl⟩

/-- C9 at a pool of dead backends under the empty strategy string, and at the
pool `[A(5), B(0)]` with the cursor at 1, where "least-conn" forwards to `B`
and a misspelt strategy forwards, by round-robin, to `A`. -/
theorem C9_no_live_backend_answers_503_witness :
    ((proxyHandler proxyAllDead (some 200)).2 = { status := 503, forwardedTo := none } ∧
      (proxyHandler proxyAllDead (some 200)).1.serverPool.Backends
        = proxyAllDead.serverPool.Backends ∧
      (proxyHandler proxyAllDead (some 200)).1.heap = proxyAllDead.heap ∧
      (proxyHandler proxyAllDead (some 200)).1.Strategy = proxyAllDead.Strategy) ∧
    ((proxyHandler proxyLeastConn (some 200)).2.forwardedTo = some 1 ∧
      (proxyHandler proxyMisspelt (some 200)).2.forwardedTo = some 0) ∧
    ((proxyHandler proxyLeastConn (some 200)).2.forwardedTo
        = GetLeastConnectedPeer proxyLeastConn.heap proxyLeastConn.serverPool ∧
      (proxyHandler proxyLeastConn (some 200)).1.serverPool = proxyLeastConn.serverPool ∧
      selectPeer proxyLeastConn
        = (proxyLeastConn.serverPool,
            GetLeastConnectedPeer proxyLeastConn.heap proxyLeastConn.serverPool)) ∧
    ((proxyHandler proxyMisspelt (some 200)).2.forwardedTo
        = (GetNextValidPeer proxyMisspelt.heap proxyMisspelt.serverPool).2 ∧
      (proxyHandler proxyMisspelt (some 200)).1.serverPool
        = (GetNextValidPeer proxyMisspelt.heap proxyMisspelt.serverPool).1 ∧
      selectPeer proxyMisspelt
        = GetNextValidPeer proxyMisspelt.heap proxyMisspelt.serverPool) :=
  ⟨(C9_no_live_backend_answers_503 proxyAllDead (some 200)).1 (Or.inr (by decide)),
    by decide,
    (C9_no_live_backend_answers_503 proxyLeastConn (some 200)).2.1 (by decide),
    (C9_no_live_backend_answers_503 proxyMisspelt (some 200)).2.2.1 (by decide)⟩

/-! ## Consecutive round-robin calls -/

theorem callsRR_nth (h : Heap) (bs : List Ptr) (c k : Nat)
    (hl : 1 ≤ bs.length) (hov : c + k < 18446744073709551616)
    (ha : ∀ b ∈ bs, IsAlive h b = true) (hk : 1 ≤ k) :
    (callsRR h ⟨bs, c⟩ k)[k - 1]? = some (bs[(c + k) % bs.length]?) := by
  rw [callsRR_all_alive h bs c k hl hov ha, List.getElem?_map,
    List.getElem?_range' (c + 1) 1 (show k - 1 < k by omega)]
  have e : c + 1 + 1 * (k - 1) = c + k := by omega
  rw [e]
  rfl

theorem callsRR_window (h : Heap) (bs : List Ptr) (c k0 : Nat)
    (hl : 1 ≤ bs.length) (hov : c + k0 + bs.length < 18446744073709551616)
    (ha : ∀ b ∈ bs, IsAlive h b = true) :
    (callsRR h ⟨bs, c⟩ (k0 + bs.length)).drop k0 = (bs.rotate (c + 1 + k0)).map some := by
  rw [callsRR_all_alive h bs c (k0 + bs.length) hl (by omega) ha]
  apply List.ext_getElem?
  intro n
  rw [List.getElem?_drop, List.getElem?_map, List.getElem?_map]
  by_cases hn : n < bs.length
  · rw [List.getElem?_range' (c + 1) 1 (show k0 + n < k0 + bs.length by omega),
      List.getElem?_rotate hn]
    have e : c + 1 + 1 * (k0 + n) = n + (c + 1 + k0) := by omega
    have hlt : (n + (c + 1 + k0)) % bs.length < bs.length := Nat.mod_lt _ (by omega)
    rw [e, List.getElem?_eq_getElem hlt]
    simp only [Option.map_some', List.getElem?_eq_getElem hlt]
  · have h1 : (List.range' (c + 1) (k0 + bs.length))[k0 + n]? = none := by
      apply List.getElem?_eq_none
      simp only [List.length_range']
      omega
    have h2 : (bs.rotate (c + 1 + k0))[n]? = none := by
      apply List.getElem?_eq_none
      simp only [List.length_rotate]
      omega
    rw [h1, h2]
    rfl

theorem callsRR_two (h : Heap) (a b : Ptr) (c : Nat)
    (hov : c + 6 < 18446744073709551616) (ha : ∀ x ∈ [a, b], IsAlive h x = true) :
    callsRR h ⟨[a, b], c⟩ 6 =
      if c % 2 = 0 then [some b, some a, some b, some a, some b, some a]
      else [some a, some b, some a, some b, some a, some b] := by
  rw [callsRR_all_alive h [a, b] c 6 (by simp) hov ha]
  simp only [List.range', List.map_cons, List.map_nil, List.length_cons, List.length_nil]
  rcases Nat.mod_two_eq_zero_or_one c with h0 | h0
  · have e1 : (c + 1) % 2 = 1 := by omega
    have e2 : (c + 1 + 1) % 2 = 0 := by omega
    have e3 : (c + 1 + 1 + 1) % 2 = 1 := by omega
    have e4 : (c + 1 + 1 + 1 + 1) % 2 = 0 := by omega
    have e5 : (c + 1 + 1 + 1 + 1 + 1) % 2 = 1 := by omega
    have e6 : (c + 1 + 1 + 1 + 1 + 1 + 1) % 2 = 0 := by omega
    simp [h0, e1, e2, e3, e4, e5, e6]
  · have e1 : (c + 1) % 2 = 0 := by omega
    have e2 : (c + 1 + 1) % 2 = 1 := by omega
    have e3 : (c + 1 + 1 + 1) % 2 = 0 := by omega
    have e4 : (c + 1 + 1 + 1 + 1) % 2 = 1 := by omega
    have e5 : (c + 1 + 1 + 1 + 1 + 1) % 2 = 0 := by omega
    have e6 : (c + 1 + 1 + 1 + 1 + 1 + 1) % 2 = 1 := by omega
    simp [h0, e1, e2, e3, e4, e5, e6]

/-- C10 as stated fails at the largest cursor value: over three alive backends
the specification's scan from `c = 2^64 - 1` starts at position
`2^64 mod 3 = 1`, while the cursor wraps to 0 and the backend at index 0 is
returned. -/
theorem C10_cursor_wrap_restarts_at_zero :
    GetNextValidPeer heapAB ⟨[0, 1, 2], 18446744073709551615⟩ = (⟨[0, 1, 2], 0⟩, some 0) ∧
    scanPositions 18446744073709551615 3 = [1, 2, 0] ∧
    firstAliveFrom heapAB [0, 1, 2] 18446744073709551615 = some 1 := by
  decide

/-- C10, amended: on a pool of `N ≥ 1` backends at cursor `c`, when
`c + N < 2^64` the call advances the cursor to `c + 1` and returns the first
alive backend along the positions `(c+1) mod N, (c+2) mod N, ...`; when all
backends are alive, the `k`-th consecutive call (`k ≥ 1`, `c + k < 2^64`)
returns the backend at index `(c + k) mod N`, any `N` consecutive calls return
a rearrangement of the pool's backend sequence, and over two backends six
calls alternate, three each. -/
theorem C10_round_robin_order (h : Heap) (bs : List Ptr) (c : Nat) (hl : 1 ≤ bs.length) :
    (c + bs.length < 18446744073709551616 →
      GetNextValidPeer h ⟨bs, c⟩ = (⟨bs, c + 1⟩, firstAliveFrom h bs c)) ∧
    ((∀ b ∈ bs, IsAlive h b = true) →
      (∀ k, 1 ≤ k → c + k < 18446744073709551616 →
        ∃ b, bs[(c + k) % bs.length]? = some b ∧
          (callsRR h ⟨bs, c⟩ k)[k - 1]? = some (some b)) ∧
      (∀ k0, c + k0 + bs.length < 18446744073709551616 →
        ((callsRR h ⟨bs, c⟩ (k0 + bs.length)).drop k0).Perm (bs.map some)) ∧
      (∀ a b, bs = [a, b] → c + 6 < 18446744073709551616 →
        callsRR h ⟨bs, c⟩ 6 =
          if c % 2 = 0 then [some b, some a, some b, some a, some b, some a]
          else [some a, some b, some a, some b, some a, some b])) := by
  refine ⟨fun hov => GetNextValidPeer_eq_firstAliveFrom h bs c hl hov, fun ha => ⟨?_, ?_, ?_⟩⟩
  · intro k hk hov
    have hlt : (c + k) % bs.length < bs.length := Nat.mod_lt _ (by omega)
    refine ⟨bs[(c + k) % bs.length], List.getElem?_eq_getElem hlt, ?_⟩
    rw [callsRR_nth h bs c k hl hov ha hk, List.getElem?_eq_getElem hlt]
  · intro k0 hov
    rw [callsRR_window h bs c k0 hl hov ha]
    exact (List.rotate_perm bs (c + 1 + k0)).map some
  · intro a b hbs hov
    subst hbs
    exact callsRR_two h a b c hov ha

/-- C10, amended, at the pool `[A, B]` from cursor 0: six calls return
B, A, B, A, B, A, the fifth call returns the backend at index `5 mod 2`, and
the calls 4 and 5 return both backends. -/
theorem C10_round_robin_order_witness :
    callsRR heapAB ⟨[0, 1], 0⟩ 6 = [some 1, some 0, some 1, some 0, some 1, some 0] ∧
    GetNextValidPeer heapAB ⟨[0, 1], 0⟩ = (⟨[0, 1], 0 + 1⟩, firstAliveFrom heapAB [0, 1] 0) ∧
    (∃ b, [0, 1][(0 + 5) % [0, 1].length]? = some b ∧
      (callsRR heapAB ⟨[0, 1], 0⟩ 5)[5 - 1]? = some (some b)) ∧
    ((callsRR heapAB ⟨[0, 1], 0⟩ (3 + [0, 1].length)).drop 3).Perm ([0, 1].map some) :=
  ⟨by decide,
    (C10_round_robin_order heapAB [0, 1] 0 (by decide)).1 (by decide),
    ((C10_round_robin_order heapAB [0, 1] 0 (by decide)).2 (by decide)).1 5 (by decide)
      (by decide),
    ((C10_round_robin_order heapAB [0, 1] 0 (by decide)).2 (by decide)).2.1 3 (by decide)⟩

/-! ## Connection counters under interleaved requests -/

theorem IncrementConnections_Alive (h : Heap) (b x : Ptr) :
    IsAlive (IncrementConnections h b) x = IsAlive h x := by
  unfold IncrementConnections IsAlive
  by_cases hx : x = b
  · subst hx; simp
  · simp [Function.update_noteq hx]

end ReverseProxy
